import Mathlib

/-!
Shallow embedding of the DesmosOrgan additive-synthesis engine
(`Source/PluginProcessor.h` / `Source/PluginProcessor.cpp`).

Machine floats are modelled as real numbers, C++ `int` as `ℤ`, the
per-harmonic `std::vector` buffers as total functions `ℕ → ℝ` (the code
only ever reads indices below `numOvertones`).  Loops with early return
or a running best are translated as structurally recursive functions
carrying the loop index.
-/

namespace DesmosOrgan

open Real Finset

/-- C++ `static_cast<int>` applied to a floating value: truncation toward
zero. -/
noncomputable def cppIntCast (x : ℝ) : ℤ := if 0 ≤ x then ⌊x⌋ else ⌈x⌉

/-- State of `class SineWaveVoice` (PluginProcessor.h, lines 8–318).
Field names follow the C++ members. -/
structure SineWaveVoice where
  sampleRate : ℝ
  isActive : Bool
  midiNote : ℤ
  velocity : ℝ
  phases : ℕ → ℝ
  phaseIncrements : ℕ → ℝ
  gains : ℕ → ℝ
  numOvertones : ℕ
  attackStage : Bool
  attackLevel : ℝ
  attackSamples : ℤ
  attackSamplesRemaining : ℤ
  releaseStage : Bool
  releaseLevel : ℝ
  releaseSamples : ℤ
  releaseSamplesRemaining : ℤ

namespace SineWaveVoice

/-- `440.0f * std::pow(2.0f, (midiNoteNumber - 69) / 12.0f)`
(PluginProcessor.h line 78). -/
noncomputable def baseFrequencyOf (midiNoteNumber : ℤ) : ℝ :=
  440 * (2 : ℝ) ^ (((midiNoteNumber : ℝ) - 69) / 12)

/-- `calculateGain` (PluginProcessor.h lines 115–119):
`2.0f / (std::pow(1.1f, freq / baseFrequency) * std::pow(1.6f, overtoneNumber))`. -/
noncomputable def calculateGain (freq : ℝ) (overtoneNumber : ℕ) (baseFrequency : ℝ) : ℝ :=
  2 / ((1.1 : ℝ) ^ (freq / baseFrequency) * (1.6 : ℝ) ^ (overtoneNumber : ℝ))

/-- `setAttackTime` (PluginProcessor.h lines 122–127). -/
noncomputable def setAttackTime (seconds : ℝ) (v : SineWaveVoice) : SineWaveVoice :=
  { v with attackSamples := max 1 (cppIntCast (seconds * v.sampleRate)) }

/-- `setReleaseTime` (PluginProcessor.h lines 130–135). -/
noncomputable def setReleaseTime (seconds : ℝ) (v : SineWaveVoice) : SineWaveVoice :=
  { v with releaseSamples := max 1 (cppIntCast (seconds * v.sampleRate)) }

/-- The gain the `startNote` loop writes for overtone index `i` before
normalization: `gains[i] = calculateGain(overtoneFreq, i + 1, baseFrequency)`
with `overtoneFreq = baseFrequency * (i + 1)` (PluginProcessor.h lines
90–93). -/
noncomputable def rawGainAt (midiNoteNumber : ℤ) (i : ℕ) : ℝ :=
  calculateGain (baseFrequencyOf midiNoteNumber * ((i : ℝ) + 1)) (i + 1)
    (baseFrequencyOf midiNoteNumber)

/-- `startNote` (PluginProcessor.h lines 62–112). -/
noncomputable def startNote (midiNoteNumber : ℤ) (velocity : ℝ) (v : SineWaveVoice) :
    SineWaveVoice :=
  let baseFrequency := baseFrequencyOf midiNoteNumber
  let maxGainSum : ℝ := ∑ i ∈ Finset.range v.numOvertones, |rawGainAt midiNoteNumber i|
  let newGain : ℕ → ℝ :=
    if maxGainSum > 0.9 then fun i => rawGainAt midiNoteNumber i * (0.9 / maxGainSum)
    else fun i => rawGainAt midiNoteNumber i
  { v with
    midiNote := midiNoteNumber
    velocity := velocity
    isActive := true
    attackStage := true
    attackLevel := 0
    attackSamplesRemaining := v.attackSamples
    releaseStage := false
    releaseLevel := 1
    phases := fun i => if i < v.numOvertones then 0 else v.phases i
    gains := fun i => if i < v.numOvertones then newGain i else v.gains i
    phaseIncrements := fun i =>
      if i < v.numOvertones then
        2 * π * (baseFrequency * ((i : ℝ) + 1)) / v.sampleRate
      else v.phaseIncrements i }

/-- `stopNote` (PluginProcessor.h lines 137–147), translated assignment by
assignment: note that `attackStage` is set to `false` *before* the ternary
`releaseLevel = attackStage ? attackLevel : 1.0f` reads it. -/
def stopNote (v : SineWaveVoice) : SineWaveVoice :=
  if v.isActive && !v.releaseStage then
    let v1 := { v with releaseStage := true }
    let v2 := { v1 with attackStage := false }
    let v3 := { v2 with releaseLevel := if v2.attackStage then v2.attackLevel else 1 }
    { v3 with releaseSamplesRemaining := v3.releaseSamples }
  else v

/-- `isNoteActive` (PluginProcessor.h lines 149–152). -/
def isNoteActive (v : SineWaveVoice) : Bool := v.isActive

/-- `isReleasing` (PluginProcessor.h lines 154–157). -/
def isReleasing (v : SineWaveVoice) : Bool := v.isActive && v.releaseStage

/-- `getReleaseSamplesRemaining` (PluginProcessor.h lines 159–162). -/
def getReleaseSamplesRemaining (v : SineWaveVoice) : ℤ :=
  if v.releaseStage then v.releaseSamplesRemaining else 0

/-- `getCurrentAmplitude` (PluginProcessor.h lines 164–172). -/
def getCurrentAmplitude (v : SineWaveVoice) : ℝ :=
  if v.attackStage then v.velocity * v.attackLevel
  else if v.releaseStage then v.velocity * v.releaseLevel
  else v.velocity

/-- `setNumOvertones` (PluginProcessor.h lines 180–203); the vector
resizing is a no-op in this model. -/
noncomputable def setNumOvertones (num maxOvertones : ℕ) (v : SineWaveVoice) : SineWaveVoice :=
  let clamped := max 1 (min maxOvertones num)
  if v.numOvertones ≠ clamped then
    let v1 := { v with numOvertones := clamped }
    if v1.isActive && !v1.releaseStage then v1.startNote v1.midiNote v1.velocity else v1
  else v

/-- `advancePhase` (PluginProcessor.h lines 246–292). -/
noncomputable def advancePhase (v : SineWaveVoice) : SineWaveVoice :=
  if !v.isActive then v
  else
    let v1 := { v with phases := (fun i =>
      if i < v.numOvertones then
        (let p := v.phases i + v.phaseIncrements i
         if p ≥ 2 * π then p - 2 * π else p)
      else v.phases i) }
    let v2 :=
      if v1.attackStage then
        if v1.attackSamplesRemaining > 0 then
          { v1 with
            attackLevel := 1 - (v1.attackSamplesRemaining : ℝ) / (v1.attackSamples : ℝ)
            attackSamplesRemaining := v1.attackSamplesRemaining - 1 }
        else { v1 with attackStage := false, attackLevel := 1 }
      else v1
    if v2.releaseStage then
      if v2.releaseSamplesRemaining > 0 then
        { v2 with
          releaseLevel := (v2.releaseSamplesRemaining : ℝ) / (v2.releaseSamples : ℝ)
          releaseSamplesRemaining := v2.releaseSamplesRemaining - 1 }
      else { v2 with isActive := false, releaseStage := false }
    else v2

/-- `advancePhase` iterated `n` times. -/
noncomputable def advanceN : ℕ → SineWaveVoice → SineWaveVoice
  | 0, v => v
  | n + 1, v => advanceN n (advancePhase v)

/-- The `SineWaveVoice(double sampleRate)` constructor
(PluginProcessor.h lines 26–44): inactive, 8 overtones, zeroed buffers,
then `setAttackTime(0.002f)` and `setReleaseTime(0.02f)`. -/
noncomputable def initialVoice (sampleRate : ℝ) : SineWaveVoice :=
  setReleaseTime 0.02 (setAttackTime 0.002
    { sampleRate := sampleRate
      isActive := false
      midiNote := 0
      velocity := 0
      phases := fun _ => 0
      phaseIncrements := fun _ => 0
      gains := fun _ => 0
      numOvertones := 8
      attackStage := false
      attackLevel := 0
      attackSamples := 0
      attackSamplesRemaining := 0
      releaseStage := false
      releaseLevel := 0
      releaseSamples := 0
      releaseSamplesRemaining := 0 })

end SineWaveVoice

/-- Soft clipping applied to a rendered sample
(PluginProcessor.cpp lines 276–283). -/
noncomputable def softClip (sampleValue : ℝ) : ℝ :=
  if sampleValue > 0.7 then
    0.7 + (1 - 0.7) * Real.tanh ((sampleValue - 0.7) / (1 - 0.7))
  else if sampleValue < -0.7 then
    -0.7 + (1 - 0.7) * Real.tanh ((sampleValue + 0.7) / (1 - 0.7))
  else sampleValue

/-- One output sample of `processBlock` (PluginProcessor.cpp lines
252–289): the sum over active voices, times the smoothed scaling factor,
times the master amplitude, soft-clipped. -/
noncomputable def renderSample (voiceSum currentFactor masterAmplitude : ℝ) : ℝ :=
  softClip (voiceSum * currentFactor * masterAmplitude)

/-- The compressor target recomputation in `processBlock`
(PluginProcessor.cpp lines 186–210). -/
noncomputable def targetVoiceScalingFactor (activeVoiceCount numOvertones : ℕ) : ℝ :=
  if activeVoiceCount > 0 then
    let baseScaling := 1 / Real.sqrt (activeVoiceCount : ℝ)
    if numOvertones > 1 then
      baseScaling * (0.7 + 0.3 / Real.logb 10 ((numOvertones : ℝ) + 1))
    else baseScaling
  else 1

/-- Compressor target as worded by the spec (§4.4): `1.0` for zero active
voices, else `base = 1/sqrt(activeVoiceCount)`, multiplied by
`0.7 + 0.3/log10(harmonicCount+1)` when the harmonic count exceeds 1. -/
noncomputable def targetFactorSpec (activeVoiceCount numOvertones : ℕ) : ℝ :=
  if activeVoiceCount = 0 then 1
  else if numOvertones > 1 then
    (1 / Real.sqrt (activeVoiceCount : ℝ)) * (0.7 + 0.3 / Real.logb 10 ((numOvertones : ℝ) + 1))
  else 1 / Real.sqrt (activeVoiceCount : ℝ)

/-- First loop of `findFreeVoice` (PluginProcessor.cpp lines 330–335):
return the first inactive voice. -/
def firstInactiveLoop : ℕ → List SineWaveVoice → Option ℕ
  | _, [] => none
  | i, v :: rest => if v.isNoteActive then firstInactiveLoop (i + 1) rest else some i

/-- Second loop of `findFreeVoice` (PluginProcessor.cpp lines 337–349):
running best releasing voice, replaced on strictly smaller
`getReleaseSamplesRemaining`. -/
def findOldestReleasingLoop :
    ℕ → Option (ℕ × ℤ) → List SineWaveVoice → Option (ℕ × ℤ)
  | _, acc, [] => acc
  | i, acc, v :: rest =>
    let acc' :=
      if v.isReleasing then
        match acc with
        | none => some (i, v.getReleaseSamplesRemaining)
        | some (j, t) =>
          if v.getReleaseSamplesRemaining < t then some (i, v.getReleaseSamplesRemaining)
          else some (j, t)
      else acc
    findOldestReleasingLoop (i + 1) acc' rest

/-- Third loop of `findFreeVoice` (PluginProcessor.cpp lines 354–366):
running quietest voice, seeded with `(&voices[0], 1.0f)`. -/
noncomputable def findQuietestLoop : ℕ → ℕ × ℝ → List SineWaveVoice → ℕ × ℝ
  | _, acc, [] => acc
  | i, acc, v :: rest =>
    let acc' := if v.getCurrentAmplitude < acc.2 then (i, v.getCurrentAmplitude) else acc
    findQuietestLoop (i + 1) acc' rest

/-- `SineWaveAudioProcessor::findFreeVoice` (PluginProcessor.cpp lines
328–367), returning the index of the chosen voice.  The `[]` case cannot
arise in the processor, whose pool always holds `MAX_VOICES = 16`
voices. -/
noncomputable def findFreeVoice (voices : List SineWaveVoice) : Option ℕ :=
  match firstInactiveLoop 0 voices with
  | some i => some i
  | none =>
    match findOldestReleasingLoop 0 none voices with
    | some (i, _) => some i
    | none =>
      match voices with
      | [] => none
      | _ :: _ => some (findQuietestLoop 0 (0, 1) voices).1

/-- The note-on branch of `processBlock` (PluginProcessor.cpp lines
151–164): scale the event velocity by `0.8f`, pick a voice with
`findFreeVoice`, start the note on it. -/
noncomputable def handleNoteOn (voices : List SineWaveVoice) (noteNumber : ℤ)
    (floatVelocity : ℝ) : List SineWaveVoice :=
  let velocity := floatVelocity * 0.8
  match findFreeVoice voices with
  | some i =>
    match voices[i]? with
    | some v => voices.set i (v.startNote noteNumber velocity)
    | none => voices
  | none => voices

/-- The envelope progression fields of a voice: activity, attack stage and
remaining attack samples, release stage and remaining release samples.
These drive every stage transition in `advancePhase`; the stored totals
only enter the ramp *levels*. -/
def envState (v : SineWaveVoice) : Bool × Bool × ℤ × Bool × ℤ :=
  (v.isActive, v.attackStage, v.attackSamplesRemaining, v.releaseStage,
    v.releaseSamplesRemaining)

/-- The action of `advancePhase` on the envelope progression fields
alone. -/
def advEnv : Bool × Bool × ℤ × Bool × ℤ → Bool × Bool × ℤ × Bool × ℤ :=
  fun s =>
    if !s.1 then s
    else
      let att : Bool × ℤ :=
        if s.2.1 then (if s.2.2.1 > 0 then (true, s.2.2.1 - 1) else (false, s.2.2.1))
        else (s.2.1, s.2.2.1)
      if s.2.2.2.1 then
        (if s.2.2.2.2 > 0 then (s.1, att.1, att.2, true, s.2.2.2.2 - 1)
         else (false, att.1, att.2, false, s.2.2.2.2))
      else (s.1, att.1, att.2, s.2.2.2.1, s.2.2.2.2)

/-- A concrete reachable mid-attack state: a fresh voice at sample rate
100 given a 4-sample attack, two `advancePhase` calls after `startNote`
(so `attackLevel = 1/4`, two attack samples remaining). -/
noncomputable def attackVoice100 : SineWaveVoice :=
  SineWaveVoice.advanceN 2
    ((SineWaveVoice.setAttackTime 0.04 (SineWaveVoice.initialVoice 100)).startNote 60 1)

/-- A concrete voice with the maximum 32 harmonics playing the top MIDI
note 127 at the standard 44.1 kHz sample rate. -/
noncomputable def voice32 : SineWaveVoice :=
  (SineWaveVoice.setNumOvertones 32 32 (SineWaveVoice.initialVoice 44100)).startNote 127 1

/-! ### Theorems -/

open SineWaveVoice

lemma advancePhase_of_inactive (v : SineWaveVoice) (h : v.isActive = false) :
    advancePhase v = v := by
  unfold advancePhase
  rw [h]
  simp

lemma advancePhase_attack_step (v : SineWaveVoice) (ha : v.isActive = true)
    (hs : v.attackStage = true) (hr : 0 < v.attackSamplesRemaining)
    (hrel : v.releaseStage = false) :
    (advancePhase v).isActive = true ∧ (advancePhase v).attackStage = true ∧
    (advancePhase v).attackSamplesRemaining = v.attackSamplesRemaining - 1 ∧
    (advancePhase v).releaseStage = false ∧
    (advancePhase v).attackLevel =
      1 - (v.attackSamplesRemaining : ℝ) / (v.attackSamples : ℝ) ∧
    (advancePhase v).attackSamples = v.attackSamples ∧
    (advancePhase v).releaseSamples = v.releaseSamples ∧
    (advancePhase v).sampleRate = v.sampleRate ∧
    (advancePhase v).velocity = v.velocity := by
  unfold advancePhase
  simp [ha, hs, hrel, hr]

lemma advancePhase_attack_end (v : SineWaveVoice) (ha : v.isActive = true)
    (hs : v.attackStage = true) (hr : v.attackSamplesRemaining ≤ 0)
    (hrel : v.releaseStage = false) :
    (advancePhase v).attackStage = false ∧ (advancePhase v).attackLevel = 1 ∧
    (advancePhase v).isActive = true ∧ (advancePhase v).releaseStage = false := by
  unfold advancePhase
  simp [ha, hs, hrel, not_lt.mpr hr]

lemma advancePhase_release_step (v : SineWaveVoice) (ha : v.isActive = true)
    (hs : v.attackStage = false) (hrel : v.releaseStage = true)
    (hr : 0 < v.releaseSamplesRemaining) :
    (advancePhase v).isActive = true ∧ (advancePhase v).attackStage = false ∧
    (advancePhase v).releaseStage = true ∧
    (advancePhase v).releaseSamplesRemaining = v.releaseSamplesRemaining - 1 ∧
    (advancePhase v).releaseLevel =
      (v.releaseSamplesRemaining : ℝ) / (v.releaseSamples : ℝ) ∧
    (advancePhase v).releaseSamples = v.releaseSamples := by
  unfold advancePhase
  simp [ha, hs, hrel, hr]

lemma advancePhase_release_end (v : SineWaveVoice) (ha : v.isActive = true)
    (hs : v.attackStage = false) (hrel : v.releaseStage = true)
    (hr : v.releaseSamplesRemaining ≤ 0) :
    (advancePhase v).isActive = false := by
  unfold advancePhase
  simp [ha, hs, hrel, not_lt.mpr hr]

lemma advanceN_add (a b : ℕ) (v : SineWaveVoice) :
    advanceN (a + b) v = advanceN a (advanceN b v) := by
  induction b generalizing v with
  | zero => rfl
  | succ b ih =>
    show advanceN (a + b) (advancePhase v) = advanceN a (advanceN b (advancePhase v))
    exact ih (advancePhase v)

lemma advanceN_of_inactive (k : ℕ) (v : SineWaveVoice) (h : v.isActive = false) :
    advanceN k v = v := by
  induction k with
  | zero => rfl
  | succ k ih =>
    show advanceN k (advancePhase v) = v
    rw [advancePhase_of_inactive v h]
    exact ih

lemma attack_run : ∀ (r : ℕ) (w : SineWaveVoice), w.isActive = true →
    w.attackStage = true → w.releaseStage = false → w.attackSamplesRemaining.toNat = r →
    (advanceN (r + 1) w).attackStage = false ∧ (advanceN (r + 1) w).attackLevel = 1 ∧
    (advanceN (r + 1) w).isActive = true ∧ (advanceN (r + 1) w).releaseStage = false := by
  intro r
  induction r with
  | zero =>
    intro w ha hs hrel htn
    have hr : w.attackSamplesRemaining ≤ 0 := by omega
    have h := advancePhase_attack_end w ha hs hr hrel
    exact h
  | succ r ih =>
    intro w ha hs hrel htn
    have hr : 0 < w.attackSamplesRemaining := by omega
    obtain ⟨h1, h2, h3, h4, -⟩ := advancePhase_attack_step w ha hs hr hrel
    have htn' : (advancePhase w).attackSamplesRemaining.toNat = r := by rw [h3]; omega
    exact ih (advancePhase w) h1 h2 h4 htn'

lemma release_run : ∀ (r : ℕ) (w : SineWaveVoice), w.isActive = true →
    w.attackStage = false → w.releaseStage = true → w.releaseSamplesRemaining.toNat = r →
    (advanceN (r + 1) w).isActive = false := by
  intro r
  induction r with
  | zero =>
    intro w ha hs hrel htn
    have hr : w.releaseSamplesRemaining ≤ 0 := by omega
    exact advancePhase_release_end w ha hs hrel hr
  | succ r ih =>
    intro w ha hs hrel htn
    have hr : 0 < w.releaseSamplesRemaining := by omega
    obtain ⟨h1, h2, h3, h4, -⟩ := advancePhase_release_step w ha hs hrel hr
    have htn' : (advancePhase w).releaseSamplesRemaining.toNat = r := by rw [h4]; omega
    exact ih (advancePhase w) h1 h2 h3 htn'

lemma stopNote_of_active_fresh (v : SineWaveVoice) (ha : v.isActive = true)
    (hr : v.releaseStage = false) :
    (stopNote v).isActive = v.isActive ∧ (stopNote v).attackStage = false ∧
    (stopNote v).releaseStage = true ∧ (stopNote v).releaseLevel = 1 ∧
    (stopNote v).releaseSamplesRemaining = v.releaseSamples ∧
    (stopNote v).releaseSamples = v.releaseSamples ∧
    (stopNote v).attackLevel = v.attackLevel := by
  unfold stopNote
  rw [ha, hr]
  simp

lemma initialVoice_attackSamples_500 : (initialVoice 500).attackSamples = 1 := by
  show max 1 (cppIntCast ((0.002 : ℝ) * 500)) = 1
  have h : (0.002 : ℝ) * 500 = 1 := by norm_num
  rw [h]
  simp [cppIntCast]

lemma initialVoice_releaseSamples_50 : (initialVoice 50).releaseSamples = 1 := by
  show max 1 (cppIntCast ((0.02 : ℝ) * 50)) = 1
  have h : (0.02 : ℝ) * 50 = 1 := by norm_num
  rw [h]
  simp [cppIntCast]

/-- C2 counterexample: a voice whose attack length is exactly one sample
(`attackSamplesTotal = 1`) is still in its attack stage, with
`attackLevel = 0 ≠ 1`, after `advance()` has been called exactly
`attackSamplesTotal` times following `startNote`. -/
theorem attack_exact_total_counterexample :
    ((initialVoice 500).startNote 69 (1 / 2)).attackSamples = 1 ∧
    (advanceN 1 ((initialVoice 500).startNote 69 (1 / 2))).attackStage = true ∧
    (advanceN 1 ((initialVoice 500).startNote 69 (1 / 2))).attackLevel ≠ 1 := by
  have hAS : ((initialVoice 500).startNote 69 (1 / 2)).attackSamples = 1 :=
    initialVoice_attackSamples_500
  have hrem : ((initialVoice 500).startNote 69 (1 / 2)).attackSamplesRemaining = 1 :=
    initialVoice_attackSamples_500
  have hr : 0 < ((initialVoice 500).startNote 69 (1 / 2)).attackSamplesRemaining := by
    rw [hrem]
    norm_num
  obtain ⟨-, h2, -, -, h5, -⟩ :=
    advancePhase_attack_step ((initialVoice 500).startNote 69 (1 / 2)) rfl rfl hr rfl
  refine ⟨hAS, h2, ?_⟩
  show (advancePhase ((initialVoice 500).startNote 69 (1 / 2))).attackLevel ≠ 1
  rw [h5, hrem, hAS]
  norm_num

/-- C2 amended: for every voice, note and velocity, calling `advance()`
exactly `attackSamplesTotal + 1` times immediately after `startNote`
leaves `attackLevel = 1.0` with the attack stage exited; after only
`attackSamplesTotal` calls the stage is still in progress. -/
theorem attack_completes_after_total_plus_one (v : SineWaveVoice) (noteNumber : ℤ)
    (velocity : ℝ) :
    (advanceN (v.attackSamples.toNat + 1) (v.startNote noteNumber velocity)).attackStage
      = false ∧
    (advanceN (v.attackSamples.toNat + 1) (v.startNote noteNumber velocity)).attackLevel
      = 1 := by
  have h := attack_run v.attackSamples.toNat (v.startNote noteNumber velocity) rfl rfl rfl rfl
  exact ⟨h.1, h.2.1⟩

/-- C3 counterexample: a voice whose release length is exactly one sample
(`releaseSamplesTotal = 1`) is still active after `stopNote()` followed by
exactly `releaseSamplesTotal` calls to `advance()`. -/
theorem release_exact_total_counterexample :
    ((initialVoice 50).startNote 69 (1 / 2)).releaseSamples = 1 ∧
    (advanceN 1 (stopNote ((initialVoice 50).startNote 69 (1 / 2)))).isNoteActive
      = true := by
  have hRS : ((initialVoice 50).startNote 69 (1 / 2)).releaseSamples = 1 :=
    initialVoice_releaseSamples_50
  obtain ⟨f1, f2, f3, -, f5, -⟩ :=
    stopNote_of_active_fresh ((initialVoice 50).startNote 69 (1 / 2)) rfl rfl
  have f1' : (stopNote ((initialVoice 50).startNote 69 (1 / 2))).isActive = true := f1
  have hr : 0 < (stopNote ((initialVoice 50).startNote 69 (1 / 2))).releaseSamplesRemaining := by
    rw [f5, hRS]
    norm_num
  obtain ⟨g1, -⟩ :=
    advancePhase_release_step (stopNote ((initialVoice 50).startNote 69 (1 / 2))) f1' f2 f3 hr
  exact ⟨hRS, g1⟩

/-- C3 amended: for every active voice (with the reachable-state facts
that a releasing voice has left its attack stage and has at most
`releaseSamplesTotal` release samples remaining), calling `stopNote()`
once and then `advance()` exactly `releaseSamplesTotal + 1` times leaves
the voice inactive; after only `releaseSamplesTotal` calls it can still be
active. -/
theorem release_completes_after_total_plus_one (w : SineWaveVoice)
    (ha : w.isActive = true)
    (hinv : w.releaseStage = true → w.attackStage = false ∧
      w.releaseSamplesRemaining ≤ w.releaseSamples) :
    (advanceN (w.releaseSamples.toNat + 1) (stopNote w)).isActive = false := by
  by_cases hrel : w.releaseStage = true
  · have hnoop : stopNote w = w := by
      unfold stopNote
      rw [ha, hrel]
      simp
    obtain ⟨hatt, hle⟩ := hinv hrel
    rw [hnoop]
    have hbase := release_run w.releaseSamplesRemaining.toNat w ha hatt hrel rfl
    have hsplit : w.releaseSamples.toNat + 1 =
        (w.releaseSamples.toNat - w.releaseSamplesRemaining.toNat) +
          (w.releaseSamplesRemaining.toNat + 1) := by omega
    rw [hsplit, advanceN_add, advanceN_of_inactive _ _ hbase]
    exact hbase
  · have hrel' : w.releaseStage = false := by
      cases h : w.releaseStage
      · rfl
      · exact absurd h hrel
    obtain ⟨f1, f2, f3, -, f5, -⟩ := stopNote_of_active_fresh w ha hrel'
    have f1' : (stopNote w).isActive = true := by rw [f1, ha]
    have htn : (stopNote w).releaseSamplesRemaining.toNat = w.releaseSamples.toNat := by
      rw [f5]
    exact htn ▸ release_run (stopNote w).releaseSamplesRemaining.toNat (stopNote w) f1' f2 f3 rfl

/-- C3 witness: a concrete freshly started voice becomes inactive after
`stopNote` and `releaseSamplesTotal + 1` advances. -/
theorem release_completes_witness :
    (advanceN ((((initialVoice 50).startNote 69 (1 / 2)).releaseSamples).toNat + 1)
      (stopNote ((initialVoice 50).startNote 69 (1 / 2)))).isActive = false :=
  release_completes_after_total_plus_one ((initialVoice 50).startNote 69 (1 / 2)) rfl
    (fun h => nomatch h)

lemma setAttack100_attackSamples :
    (setAttackTime 0.04 (initialVoice 100)).attackSamples = 4 := by
  show max 1 (cppIntCast ((0.04 : ℝ) * 100)) = 4
  have h : (0.04 : ℝ) * 100 = 4 := by norm_num
  rw [h]
  simp [cppIntCast]

lemma attackVoice100_fields :
    attackVoice100.isActive = true ∧ attackVoice100.attackStage = true ∧
    attackVoice100.releaseStage = false ∧ attackVoice100.attackLevel = 1 / 4 ∧
    attackVoice100.attackSamplesRemaining = 2 ∧ attackVoice100.attackSamples = 4 ∧
    attackVoice100.sampleRate = 100 := by
  have hAS : ((setAttackTime 0.04 (initialVoice 100)).startNote 60 1).attackSamples = 4 :=
    setAttack100_attackSamples
  have hrem0 : ((setAttackTime 0.04 (initialVoice 100)).startNote 60 1).attackSamplesRemaining
      = 4 := setAttack100_attackSamples
  have hr0 : 0 < ((setAttackTime 0.04 (initialVoice 100)).startNote 60 1).attackSamplesRemaining := by
    rw [hrem0]
    norm_num
  obtain ⟨a1, a2, a3, a4, -, a6, -, a8, -⟩ :=
    advancePhase_attack_step ((setAttackTime 0.04 (initialVoice 100)).startNote 60 1)
      rfl rfl hr0 rfl
  have hrem1 : (advancePhase ((setAttackTime 0.04 (initialVoice 100)).startNote 60 1)).attackSamplesRemaining = 3 := by
    rw [a3, hrem0]
    norm_num
  have hAS1 : (advancePhase ((setAttackTime 0.04 (initialVoice 100)).startNote 60 1)).attackSamples = 4 := by
    rw [a6, hAS]
  have hr1 : 0 < (advancePhase ((setAttackTime 0.04 (initialVoice 100)).startNote 60 1)).attackSamplesRemaining := by
    rw [hrem1]
    norm_num
  obtain ⟨b1, b2, b3, b4, b5, b6, -, b8, -⟩ :=
    advancePhase_attack_step (advancePhase ((setAttackTime 0.04 (initialVoice 100)).startNote 60 1))
      a1 a2 hr1 a4
  refine ⟨b1, b2, b4, ?_, ?_, ?_, ?_⟩
  · show (advancePhase (advancePhase ((setAttackTime 0.04 (initialVoice 100)).startNote 60 1))).attackLevel = 1 / 4
    rw [b5, hrem1, hAS1]
    norm_num
  · show (advancePhase (advancePhase ((setAttackTime 0.04 (initialVoice 100)).startNote 60 1))).attackSamplesRemaining = 2
    rw [b3, hrem1]
    norm_num
  · show (advancePhase (advancePhase ((setAttackTime 0.04 (initialVoice 100)).startNote 60 1))).attackSamples = 4
    rw [b6, hAS1]
  · show (advancePhase (advancePhase ((setAttackTime 0.04 (initialVoice 100)).startNote 60 1))).sampleRate = 100
    rw [b8, a8]
    rfl

/-- C4: at a reachable mid-attack state (`attackStage = true`,
`attackLevel = 1/4`), `stopNote()` sets `releaseLevel` to `1`, not to the
current attack level: the C++ code assigns `attackStage = false` *before*
the ternary `releaseLevel = attackStage ? attackLevel : 1.0f` reads it, so
the "start from current level" comment is never honoured. -/
theorem stopNote_releaseLevel_bug :
    attackVoice100.attackStage = true ∧
    attackVoice100.attackLevel = 1 / 4 ∧
    (stopNote attackVoice100).releaseLevel = 1 ∧
    (stopNote attackVoice100).releaseLevel ≠ attackVoice100.attackLevel := by
  obtain ⟨h1, h2, h3, h4, -⟩ := attackVoice100_fields
  obtain ⟨-, -, -, s4, -⟩ := stopNote_of_active_fresh attackVoice100 h1 h3
  refine ⟨h2, h4, s4, ?_⟩
  rw [s4, h4]
  norm_num

/-- C8 counterexample: on a voice two samples into a 4-sample attack,
shrinking the attack duration to 2 samples changes the very next ramp
value produced by `advance()` (it becomes `0` instead of `1/2`), so an
in-progress stage is *not* unaffected by `setAttackTime`. -/
theorem setAttackTime_midstage_counterexample :
    (advancePhase (setAttackTime 0.02 attackVoice100)).attackLevel = 0 ∧
    (advancePhase attackVoice100).attackLevel = 1 / 2 ∧
    (advancePhase (setAttackTime 0.02 attackVoice100)).attackLevel ≠
      (advancePhase attackVoice100).attackLevel := by
  obtain ⟨h1, h2, h3, -, h5, h6, h7⟩ := attackVoice100_fields
  have m1 : (setAttackTime 0.02 attackVoice100).isActive = true := h1
  have m2 : (setAttackTime 0.02 attackVoice100).attackStage = true := h2
  have m3 : (setAttackTime 0.02 attackVoice100).releaseStage = false := h3
  have m5 : (setAttackTime 0.02 attackVoice100).attackSamplesRemaining = 2 := h5
  have mAS : (setAttackTime 0.02 attackVoice100).attackSamples = 2 := by
    show max 1 (cppIntCast ((0.02 : ℝ) * attackVoice100.sampleRate)) = 2
    rw [h7]
    have h : (0.02 : ℝ) * 100 = 2 := by norm_num
    rw [h]
    simp [cppIntCast]
  have hr : 0 < (setAttackTime 0.02 attackVoice100).attackSamplesRemaining := by
    rw [m5]
    norm_num
  obtain ⟨-, -, -, -, n5, -⟩ :=
    advancePhase_attack_step (setAttackTime 0.02 attackVoice100) m1 m2 hr m3
  have hr' : 0 < attackVoice100.attackSamplesRemaining := by
    rw [h5]
    norm_num
  obtain ⟨-, -, -, -, p5, -⟩ := advancePhase_attack_step attackVoice100 h1 h2 hr' h3
  refine ⟨?_, ?_, ?_⟩
  · rw [n5, m5, mAS]
    norm_num
  · rw [p5, h5, h6]
    norm_num
  · rw [n5, m5, mAS, p5, h5, h6]
    norm_num

lemma envState_advancePhase (v : SineWaveVoice) :
    envState (advancePhase v) = advEnv (envState v) := by
  unfold advancePhase advEnv envState
  cases ha : v.isActive <;> cases hs : v.attackStage <;> cases hrel : v.releaseStage <;>
    by_cases har : v.attackSamplesRemaining > 0 <;>
      by_cases hrr : v.releaseSamplesRemaining > 0 <;>
        simp [ha, hs, hrel, har, hrr]

lemma envState_advanceN (k : ℕ) (v w : SineWaveVoice) (h : envState v = envState w) :
    envState (advanceN k v) = envState (advanceN k w) := by
  induction k generalizing v w with
  | zero => exact h
  | succ k ih =>
    show envState (advanceN k (advancePhase v)) = envState (advanceN k (advancePhase w))
    exact ih _ _ (by rw [envState_advancePhase, envState_advancePhase, h])

/-- C8 amended: `setAttackTime`/`setReleaseTime` never change which
envelope stage is in progress nor its remaining sample count at any later
sample — every stage still completes after the same number of `advance()`
calls — but the in-progress ramp *values* are recomputed against the new
stored total (see the counterexample), so they are not those the old
duration would have produced. -/
theorem set_times_preserve_stage_progression (k : ℕ) (s₁ s₂ : ℝ) (v : SineWaveVoice) :
    envState (advanceN k (setAttackTime s₁ (setReleaseTime s₂ v))) =
      envState (advanceN k v) := by
  exact envState_advanceN k _ _ rfl

lemma advancePhase_phases (v : SineWaveVoice) (ha : v.isActive = true) (i : ℕ) :
    (advancePhase v).phases i =
      if i < v.numOvertones then
        (if v.phases i + v.phaseIncrements i ≥ 2 * π
         then v.phases i + v.phaseIncrements i - 2 * π
         else v.phases i + v.phaseIncrements i)
      else v.phases i := by
  unfold advancePhase
  cases hs : v.attackStage <;> by_cases har : v.attackSamplesRemaining > 0 <;>
    cases hrel : v.releaseStage <;> by_cases hrr : v.releaseSamplesRemaining > 0 <;>
      simp [ha, hs, har, hrel, hrr]

/-- C7 amended: after each `advance()` every one of the voice's
`harmonicCount` phases stays in `[0, 2π)` *provided* every phase
increment lies in `[0, 2π)` (i.e. each harmonic frequency is below the
sample rate); the code only subtracts `2π` once, so an increment of `2π`
or more breaks the invariant (see the counterexample). -/
theorem advancePhase_preserves_phase_range (v : SineWaveVoice)
    (hph : ∀ i, i < v.numOvertones → 0 ≤ v.phases i ∧ v.phases i < 2 * π)
    (hinc : ∀ i, i < v.numOvertones →
      0 ≤ v.phaseIncrements i ∧ v.phaseIncrements i < 2 * π) :
    ∀ i, i < v.numOvertones →
      0 ≤ (advancePhase v).phases i ∧ (advancePhase v).phases i < 2 * π := by
  intro i hi
  cases ha : v.isActive
  · rw [advancePhase_of_inactive v ha]
    exact hph i hi
  · rw [advancePhase_phases v ha i, if_pos hi]
    obtain ⟨hp0, hp1⟩ := hph i hi
    obtain ⟨hq0, hq1⟩ := hinc i hi
    by_cases h : v.phases i + v.phaseIncrements i ≥ 2 * π
    · rw [if_pos h]
      constructor <;> linarith
    · rw [if_neg h]
      push_neg at h
      exact ⟨by linarith, h⟩

/-- C7 witness: on a concrete fresh voice with zero phases and zero
increments, one `advance()` keeps phase 0 inside `[0, 2π)`. -/
theorem advancePhase_preserves_phase_range_witness :
    0 ≤ (advancePhase (initialVoice 44100)).phases 0 ∧
    (advancePhase (initialVoice 44100)).phases 0 < 2 * π := by
  have hpi := Real.pi_pos
  refine advancePhase_preserves_phase_range (initialVoice 44100) ?_ ?_ 0 ?_
  · intro i hi
    exact ⟨le_refl 0, show (0 : ℝ) < 2 * π by linarith⟩
  · intro i hi
    exact ⟨le_refl 0, show (0 : ℝ) < 2 * π by linarith⟩
  · show (0 : ℕ) < 8
    norm_num

lemma baseFrequencyOf_127 : (7040 : ℝ) ≤ baseFrequencyOf 127 := by
  unfold baseFrequencyOf
  have hexp : ((((127 : ℤ) : ℝ)) - 69) / 12 = 58 / 12 := by norm_num
  rw [hexp]
  have h3 : (2 : ℝ) ^ (4 : ℝ) ≤ (2 : ℝ) ^ ((58 : ℝ) / 12) :=
    Real.rpow_le_rpow_of_exponent_le one_le_two (by norm_num)
  have h4 : (2 : ℝ) ^ (4 : ℝ) = 16 := by
    rw [show (4 : ℝ) = ((4 : ℕ) : ℝ) by norm_num, Real.rpow_natCast]
    norm_num
  nlinarith [h3, h4]

/-- C7 counterexample: at MIDI note 127 with 32 harmonics at 44.1 kHz the
32nd harmonic's phase increment exceeds `4π`, so after a single
`advance()` (which wraps by subtracting `2π` at most once) its phase is
`≥ 2π`, outside the claimed `[0, 2π)` range. -/
theorem phase_wrap_counterexample :
    voice32.numOvertones = 32 ∧ ¬ ((advancePhase voice32).phases 31 < 2 * π) := by
  have hpi := Real.pi_pos
  have hf := baseFrequencyOf_127
  have hI : voice32.phaseIncrements 31 =
      2 * π * (baseFrequencyOf 127 * (((31 : ℕ) : ℝ) + 1)) / 44100 := rfl
  have hP : voice32.phases 31 = 0 := rfl
  have hinc : 4 * π ≤ voice32.phaseIncrements 31 := by
    rw [hI, show (((31 : ℕ) : ℝ) + 1) = 32 by norm_num,
      le_div_iff₀ (by norm_num : (0 : ℝ) < 44100)]
    nlinarith [hpi, hf]
  have h31 : 31 < voice32.numOvertones := by decide
  refine ⟨rfl, ?_⟩
  rw [advancePhase_phases voice32 rfl 31, if_pos h31]
  have hge : voice32.phases 31 + voice32.phaseIncrements 31 ≥ 2 * π := by
    rw [hP, zero_add]
    nlinarith [hinc, hpi]
  rw [if_pos hge, hP, zero_add]
  intro hcon
  linarith [hinc]

lemma calculateGain_pos (freq : ℝ) (k : ℕ) (f0 : ℝ) : 0 < calculateGain freq k f0 := by
  unfold calculateGain
  have h1 : (0 : ℝ) < (1.1 : ℝ) ^ (freq / f0) := Real.rpow_pos_of_pos (by norm_num) _
  have h2 : (0 : ℝ) < (1.6 : ℝ) ^ ((k : ℕ) : ℝ) := Real.rpow_pos_of_pos (by norm_num) _
  positivity

lemma rawGainAt_pos (n : ℤ) (i : ℕ) : 0 < rawGainAt n i := calculateGain_pos _ _ _

lemma startNote_gains (v : SineWaveVoice) (n : ℤ) (vel : ℝ) (i : ℕ)
    (hi : i < v.numOvertones) :
    (v.startNote n vel).gains i =
      if (∑ j ∈ Finset.range v.numOvertones, |rawGainAt n j|) > 0.9
      then rawGainAt n i * (0.9 / ∑ j ∈ Finset.range v.numOvertones, |rawGainAt n j|)
      else rawGainAt n i := by
  have h : (v.startNote n vel).gains i =
      (if (∑ j ∈ Finset.range v.numOvertones, |rawGainAt n j|) > 0.9
       then fun k => rawGainAt n k * (0.9 / ∑ j ∈ Finset.range v.numOvertones, |rawGainAt n j|)
       else fun k => rawGainAt n k) i := by
    show (if i < v.numOvertones then _ else _) = _
    rw [if_pos hi]
  rw [h, apply_ite (fun f : ℕ → ℝ => f i)]

/-- C6: immediately after `startNote`, for any note and any harmonic count
in `[1, 32]`, every gain equals the falloff formula
`calculateGain(f0·(k+1), k+1, f0) = 2/(1.1^(freq/f0)·1.6^(k+1))` times one
common positive factor, the sum of absolute gains is at most `0.9`, and
when the raw sum exceeds `0.9` the normalized sum equals `0.9` exactly. -/
theorem startNote_gain_normalization (v : SineWaveVoice) (noteNumber : ℤ) (velocity : ℝ)
    (h1 : 1 ≤ v.numOvertones) (h2 : v.numOvertones ≤ 32) :
    (∑ i ∈ Finset.range v.numOvertones, |(v.startNote noteNumber velocity).gains i|) ≤ 0.9 ∧
    ∃ c : ℝ, 0 < c ∧
      (∀ i < v.numOvertones,
        (v.startNote noteNumber velocity).gains i = c * rawGainAt noteNumber i) ∧
      ((∑ i ∈ Finset.range v.numOvertones, |rawGainAt noteNumber i|) > 0.9 →
        (∑ i ∈ Finset.range v.numOvertones,
          |(v.startNote noteNumber velocity).gains i|) = 0.9) := by
  have hpos : ∀ j, 0 < rawGainAt noteNumber j := rawGainAt_pos noteNumber
  have habs : ∀ j, |rawGainAt noteNumber j| = rawGainAt noteNumber j :=
    fun j => abs_of_pos (hpos j)
  have hSraw : (∑ j ∈ Finset.range v.numOvertones, |rawGainAt noteNumber j|) =
      ∑ j ∈ Finset.range v.numOvertones, rawGainAt noteNumber j :=
    Finset.sum_congr rfl fun j _ => habs j
  have hSpos : 0 < ∑ j ∈ Finset.range v.numOvertones, |rawGainAt noteNumber j| := by
    rw [hSraw]
    exact Finset.sum_pos (fun j _ => hpos j) ⟨0, Finset.mem_range.mpr (by omega)⟩
  by_cases hc : (∑ j ∈ Finset.range v.numOvertones, |rawGainAt noteNumber j|) > 0.9
  · have hgain : ∀ i < v.numOvertones, (v.startNote noteNumber velocity).gains i =
        rawGainAt noteNumber i *
          (0.9 / ∑ j ∈ Finset.range v.numOvertones, |rawGainAt noteNumber j|) := by
      intro i hi
      rw [startNote_gains v noteNumber velocity i hi, if_pos hc]
    have hsum : (∑ i ∈ Finset.range v.numOvertones,
        |(v.startNote noteNumber velocity).gains i|) = 0.9 := by
      have hstep : (∑ i ∈ Finset.range v.numOvertones,
          |(v.startNote noteNumber velocity).gains i|) =
          ∑ i ∈ Finset.range v.numOvertones, rawGainAt noteNumber i *
            (0.9 / ∑ j ∈ Finset.range v.numOvertones, |rawGainAt noteNumber j|) := by
        refine Finset.sum_congr rfl fun i hi => ?_
        rw [hgain i (Finset.mem_range.mp hi),
          abs_of_pos (mul_pos (hpos i) (div_pos (by norm_num) hSpos))]
      rw [hstep, ← Finset.sum_mul, ← hSraw]
      field_simp
    refine ⟨le_of_eq hsum,
      0.9 / ∑ j ∈ Finset.range v.numOvertones, |rawGainAt noteNumber j|,
      div_pos (by norm_num) hSpos, fun i hi => ?_, fun _ => hsum⟩
    rw [hgain i hi, mul_comm]
  · have hgain : ∀ i < v.numOvertones,
        (v.startNote noteNumber velocity).gains i = rawGainAt noteNumber i := by
      intro i hi
      rw [startNote_gains v noteNumber velocity i hi, if_neg hc]
    have hsum : (∑ i ∈ Finset.range v.numOvertones,
        |(v.startNote noteNumber velocity).gains i|) =
        ∑ j ∈ Finset.range v.numOvertones, |rawGainAt noteNumber j| := by
      refine Finset.sum_congr rfl fun i hi => ?_
      rw [hgain i (Finset.mem_range.mp hi)]
    refine ⟨?_, 1, one_pos, fun i hi => by rw [hgain i hi, one_mul], fun hgt => absurd hgt hc⟩
    rw [hsum]
    exact le_of_not_lt hc

/-- C6 witness: a fresh 8-harmonic voice started at A4 with velocity 1 has
absolute gains summing to at most `0.9`. -/
theorem startNote_gain_normalization_witness :
    (∑ i ∈ Finset.range (initialVoice 44100).numOvertones,
      |((initialVoice 44100).startNote 69 1).gains i|) ≤ 0.9 :=
  (startNote_gain_normalization (initialVoice 44100) 69 1 (by decide) (by decide)).1

lemma getElem?_lt {α : Type*} {l : List α} {k : ℕ} {a : α} (h : l[k]? = some a) :
    k < l.length := by
  by_contra hcon
  rw [List.getElem?_eq_none (Nat.le_of_not_lt hcon)] at h
  exact Option.noConfusion h

lemma mem_of_getElem?' {α : Type*} {l : List α} {k : ℕ} {a : α} (h : l[k]? = some a) :
    a ∈ l := by
  obtain ⟨hk, rfl⟩ := List.getElem?_eq_some_iff.mp h
  exact List.getElem_mem hk

lemma firstInactiveLoop_eq_none (l : List SineWaveVoice) : ∀ i : ℕ,
    firstInactiveLoop i l = none ↔ ∀ v ∈ l, v.isNoteActive = true := by
  induction l with
  | nil =>
    intro i
    simp [firstInactiveLoop]
  | cons v rest ih =>
    intro i
    unfold firstInactiveLoop
    cases h : v.isNoteActive
    · simp [h, List.forall_mem_cons]
    · simp [h, List.forall_mem_cons, ih (i + 1)]

lemma firstInactiveLoop_eq_some (l : List SineWaveVoice) : ∀ (i j : ℕ),
    firstInactiveLoop i l = some j →
    ∃ k w, j = i + k ∧ l[k]? = some w ∧ w.isNoteActive = false := by
  induction l with
  | nil =>
    intro i j h
    exact absurd h (by simp [firstInactiveLoop])
  | cons v rest ih =>
    intro i j h
    unfold firstInactiveLoop at h
    cases hv : v.isNoteActive
    · rw [hv] at h
      simp at h
      exact ⟨0, v, by omega, by simp, hv⟩
    · rw [hv] at h
      simp at h
      obtain ⟨k, w, hjk, hk, hw⟩ := ih (i + 1) j h
      exact ⟨k + 1, w, by omega, by simpa using hk, hw⟩

lemma findOldestReleasingLoop_eq_none (l : List SineWaveVoice) :
    ∀ (i : ℕ) (acc : Option (ℕ × ℤ)),
    findOldestReleasingLoop i acc l = none ↔
      acc = none ∧ ∀ v ∈ l, v.isReleasing = false := by
  induction l with
  | nil =>
    intro i acc
    simp [findOldestReleasingLoop]
  | cons v rest ih =>
    intro i acc
    unfold findOldestReleasingLoop
    cases hv : v.isReleasing
    · simp [hv, ih, List.forall_mem_cons]
    · cases acc with
      | none => simp [hv, ih, List.forall_mem_cons]
      | some p =>
        rcases p with ⟨j₀, t₀⟩
        by_cases hlt : v.getReleaseSamplesRemaining < t₀ <;>
          simp [hv, hlt, ih, List.forall_mem_cons]

lemma findOldestReleasingLoop_eq_some (l : List SineWaveVoice) :
    ∀ (i : ℕ) (acc : Option (ℕ × ℤ)) (j : ℕ) (t : ℤ),
    findOldestReleasingLoop i acc l = some (j, t) →
    ((acc = some (j, t)) ∨ ∃ k w, j = i + k ∧ l[k]? = some w ∧ w.isReleasing = true ∧
        t = w.getReleaseSamplesRemaining) ∧
    (∀ w ∈ l, w.isReleasing = true → t ≤ w.getReleaseSamplesRemaining) ∧
    (∀ j₀ t₀, acc = some (j₀, t₀) → t ≤ t₀) := by
  induction l with
  | nil =>
    intro i acc j t h
    simp [findOldestReleasingLoop] at h
    refine ⟨Or.inl h, by simp, fun j₀ t₀ h₀ => ?_⟩
    rw [h] at h₀
    simp at h₀
    omega
  | cons v rest ih =>
    intro i acc j t h
    unfold findOldestReleasingLoop at h
    cases hv : v.isReleasing
    · rw [hv] at h
      simp only [Bool.false_eq_true, if_false] at h
      obtain ⟨hsrc, hmin, hacc⟩ := ih (i + 1) acc j t h
      refine ⟨?_, ?_, hacc⟩
      · rcases hsrc with h1 | ⟨k, w, hk1, hk2, hk3, hk4⟩
        · exact Or.inl h1
        · exact Or.inr ⟨k + 1, w, by omega, by simpa using hk2, hk3, hk4⟩
      · intro w hw hrel
        rcases List.mem_cons.mp hw with rfl | hw'
        · rw [hrel] at hv
          cases hv
        · exact hmin w hw' hrel
    · cases acc with
      | none =>
        rw [hv] at h
        simp only [if_true] at h
        obtain ⟨hsrc, hmin, hacc⟩ := ih (i + 1) (some (i, v.getReleaseSamplesRemaining)) j t h
        have htle : t ≤ v.getReleaseSamplesRemaining := hacc i _ rfl
        refine ⟨?_, ?_, by simp⟩
        · rcases hsrc with h1 | ⟨k, w, hk1, hk2, hk3, hk4⟩
          · simp at h1
            exact Or.inr ⟨0, v, by omega, by simp, hv, by omega⟩
          · exact Or.inr ⟨k + 1, w, by omega, by simpa using hk2, hk3, hk4⟩
        · intro w hw hrel
          rcases List.mem_cons.mp hw with rfl | hw'
          · exact htle
          · exact hmin w hw' hrel
      | some p =>
        rcases p with ⟨j₀, t₀⟩
        rw [hv] at h
        by_cases hlt : v.getReleaseSamplesRemaining < t₀
        · simp only [if_true, hlt, if_pos] at h
          obtain ⟨hsrc, hmin, hacc⟩ := ih (i + 1) (some (i, v.getReleaseSamplesRemaining)) j t h
          have htle : t ≤ v.getReleaseSamplesRemaining := hacc i _ rfl
          refine ⟨?_, ?_, ?_⟩
          · rcases hsrc with h1 | ⟨k, w, hk1, hk2, hk3, hk4⟩
            · simp at h1
              exact Or.inr ⟨0, v, by omega, by simp, hv, by omega⟩
            · exact Or.inr ⟨k + 1, w, by omega, by simpa using hk2, hk3, hk4⟩
          · intro w hw hrel
            rcases List.mem_cons.mp hw with rfl | hw'
            · exact htle
            · exact hmin w hw' hrel
          · intro j' t' heq
            simp at heq
            omega
        · simp only [if_true, hlt, if_neg, not_false_iff] at h
          obtain ⟨hsrc, hmin, hacc⟩ := ih (i + 1) (some (j₀, t₀)) j t h
          have ht₀ : t ≤ t₀ := hacc j₀ t₀ rfl
          have htv : t ≤ v.getReleaseSamplesRemaining := by omega
          refine ⟨?_, ?_, ?_⟩
          · rcases hsrc with h1 | ⟨k, w, hk1, hk2, hk3, hk4⟩
            · exact Or.inl h1
            · exact Or.inr ⟨k + 1, w, by omega, by simpa using hk2, hk3, hk4⟩
          · intro w hw hrel
            rcases List.mem_cons.mp hw with rfl | hw'
            · exact htv
            · exact hmin w hw' hrel
          · intro j' t' heq
            simp at heq
            omega

lemma findQuietestLoop_spec (l : List SineWaveVoice) : ∀ (i : ℕ) (acc : ℕ × ℝ),
    ((findQuietestLoop i acc l = acc) ∨
      ∃ k w, (findQuietestLoop i acc l).1 = i + k ∧ l[k]? = some w ∧
        (findQuietestLoop i acc l).2 = w.getCurrentAmplitude) ∧
    (findQuietestLoop i acc l).2 ≤ acc.2 ∧
    (∀ w ∈ l, (findQuietestLoop i acc l).2 ≤ w.getCurrentAmplitude) := by
  induction l with
  | nil =>
    intro i acc
    exact ⟨Or.inl rfl, le_refl _, by simp⟩
  | cons v rest ih =>
    intro i acc
    by_cases hlt : v.getCurrentAmplitude < acc.2
    · have hstep : findQuietestLoop i acc (v :: rest) =
          findQuietestLoop (i + 1) (i, v.getCurrentAmplitude) rest := by
        conv_lhs => unfold findQuietestLoop
        rw [if_pos hlt]
      rw [hstep]
      obtain ⟨hsrc, hle, hmin⟩ := ih (i + 1) (i, v.getCurrentAmplitude)
      refine ⟨?_, le_trans hle (le_of_lt hlt), ?_⟩
      · rcases hsrc with h1 | ⟨k, w, hk1, hk2, hk3⟩
        · refine Or.inr ⟨0, v, ?_, by simp, ?_⟩
          · rw [h1]
            simp
          · rw [h1]
        · exact Or.inr ⟨k + 1, w, by omega, by simpa using hk2, hk3⟩
      · intro w hw
        rcases List.mem_cons.mp hw with rfl | hw'
        · exact hle
        · exact hmin w hw'
    · have hstep : findQuietestLoop i acc (v :: rest) = findQuietestLoop (i + 1) acc rest := by
        conv_lhs => unfold findQuietestLoop
        rw [if_neg hlt]
      rw [hstep]
      obtain ⟨hsrc, hle, hmin⟩ := ih (i + 1) acc
      refine ⟨?_, hle, ?_⟩
      · rcases hsrc with h1 | ⟨k, w, hk1, hk2, hk3⟩
        · exact Or.inl h1
        · exact Or.inr ⟨k + 1, w, by omega, by simpa using hk2, hk3⟩
      · intro w hw
        rcases List.mem_cons.mp hw with rfl | hw'
        · push_neg at hlt
          exact le_trans hle hlt
        · exact hmin w hw'

lemma handleNoteOn_starts {voices : List SineWaveVoice} {i : ℕ}
    (hfv : findFreeVoice voices = some i) (hlen : i < voices.length) :
    ∀ (noteNumber : ℤ) (fv : ℝ), ∃ w,
      (handleNoteOn voices noteNumber fv)[i]? = some w ∧ w.isNoteActive = true := by
  intro noteNumber fv
  have hw : voices[i]? = some voices[i] := List.getElem?_eq_getElem hlen
  refine ⟨voices[i].startNote noteNumber (fv * 0.8), ?_, rfl⟩
  unfold handleNoteOn
  simp only [hfv, hw]
  exact List.getElem?_set_eq_of_lt _ hlen

/-- C5: on a nonempty voice pool whose current amplitudes are all below 1
(always the case in the processor, whose velocities are capped at 0.8),
`findFreeVoice` always returns the index of an existing voice — the first
inactive one if any exists, else a releasing voice with the fewest release
samples remaining, else a voice of minimal current amplitude — and the
note-on handler then starts the note on that voice, so a note-on is never
dropped. -/
theorem findFreeVoice_policy (voices : List SineWaveVoice) (hne : voices ≠ [])
    (hamp : ∀ w ∈ voices, w.getCurrentAmplitude < 1) :
    ∃ i, findFreeVoice voices = some i ∧ i < voices.length ∧
      ((∃ w ∈ voices, w.isNoteActive = false) →
        ∃ w, voices[i]? = some w ∧ w.isNoteActive = false) ∧
      ((∀ w ∈ voices, w.isNoteActive = true) → (∃ w ∈ voices, w.isReleasing = true) →
        ∃ w, voices[i]? = some w ∧ w.isReleasing = true ∧
          ∀ u ∈ voices, u.isReleasing = true →
            w.getReleaseSamplesRemaining ≤ u.getReleaseSamplesRemaining) ∧
      ((∀ w ∈ voices, w.isNoteActive = true) → (∀ w ∈ voices, w.isReleasing = false) →
        ∃ w, voices[i]? = some w ∧
          ∀ u ∈ voices, w.getCurrentAmplitude ≤ u.getCurrentAmplitude) ∧
      (∀ (noteNumber : ℤ) (fv : ℝ), ∃ w,
        (handleNoteOn voices noteNumber fv)[i]? = some w ∧ w.isNoteActive = true) := by
  cases h1 : firstInactiveLoop 0 voices with
  | some j =>
    obtain ⟨k, w, hjk, hk, hw⟩ := firstInactiveLoop_eq_some voices 0 j h1
    have hj : j = k := by omega
    have hfv : findFreeVoice voices = some j := by
      unfold findFreeVoice
      rw [h1]
    have hlen : j < voices.length := hj ▸ getElem?_lt hk
    refine ⟨j, hfv, hlen, fun _ => ⟨w, hj ▸ hk, hw⟩, ?_, ?_, handleNoteOn_starts hfv hlen⟩
    · intro hall _
      rw [hall w (mem_of_getElem?' hk)] at hw
      cases hw
    · intro hall _
      rw [hall w (mem_of_getElem?' hk)] at hw
      cases hw
  | none =>
    have hall : ∀ w ∈ voices, w.isNoteActive = true :=
      (firstInactiveLoop_eq_none voices 0).mp h1
    cases h2 : findOldestReleasingLoop 0 none voices with
    | some p =>
      rcases p with ⟨j, t⟩
      obtain ⟨hsrc, hmin, -⟩ := findOldestReleasingLoop_eq_some voices 0 none j t h2
      rcases hsrc with hbad | ⟨k, w, hjk, hk, hrel, ht⟩
      · exact absurd hbad (by simp)
      have hfv : findFreeVoice voices = some j := by
        unfold findFreeVoice
        rw [h1, h2]
      have hj : j = k := by omega
      have hlen : j < voices.length := hj ▸ getElem?_lt hk
      refine ⟨j, hfv, hlen, ?_, ?_, ?_, handleNoteOn_starts hfv hlen⟩
      · rintro ⟨u, hu, hua⟩
        rw [hall u hu] at hua
        cases hua
      · intro _ _
        exact ⟨w, hj ▸ hk, hrel, fun u hu hur => ht ▸ hmin u hu hur⟩
      · intro _ hnone
        rw [hnone w (mem_of_getElem?' hk)] at hrel
        cases hrel
    | none =>
      have hnorel : ∀ w ∈ voices, w.isReleasing = false :=
        ((findOldestReleasingLoop_eq_none voices 0 none).mp h2).2
      cases hvs : voices with
      | nil => exact absurd hvs hne
      | cons v rest =>
        subst hvs
        have hfv : findFreeVoice (v :: rest) =
            some (findQuietestLoop 0 (0, 1) (v :: rest)).1 := by
          unfold findFreeVoice
          rw [h1, h2]
        obtain ⟨hsrc, -, hmin⟩ := findQuietestLoop_spec (v :: rest) 0 (0, 1)
        rcases hsrc with h3 | ⟨k, w, hk1, hk2, hk3⟩
        · exfalso
          have hv1 := hmin v (by simp)
          rw [h3] at hv1
          exact absurd (lt_of_le_of_lt hv1 (hamp v (by simp))) (lt_irrefl 1)
        · have hlen : (findQuietestLoop 0 (0, 1) (v :: rest)).1 < (v :: rest).length := by
            have := getElem?_lt hk2
            omega
          refine ⟨_, hfv, hlen, ?_, ?_, ?_, handleNoteOn_starts hfv hlen⟩
          · rintro ⟨u, hu, hua⟩
            rw [hall u hu] at hua
            cases hua
          · rintro _ ⟨u, hu, hur⟩
            rw [hnorel u hu] at hur
            cases hur
          · intro _ _
            refine ⟨w, ?_, fun u hu => hk3 ▸ hmin u hu⟩
            rw [hk1]
            simpa using hk2

/-- C5 witness: a one-voice pool with a fresh (inactive, amplitude 0)
voice satisfies the allocator policy theorem. -/
theorem findFreeVoice_policy_witness :
    ∃ i, findFreeVoice [initialVoice 44100] = some i ∧
      i < [initialVoice 44100].length ∧
      ((∃ w ∈ [initialVoice 44100], w.isNoteActive = false) →
        ∃ w, [initialVoice 44100][i]? = some w ∧ w.isNoteActive = false) ∧
      ((∀ w ∈ [initialVoice 44100], w.isNoteActive = true) →
        (∃ w ∈ [initialVoice 44100], w.isReleasing = true) →
        ∃ w, [initialVoice 44100][i]? = some w ∧ w.isReleasing = true ∧
          ∀ u ∈ [initialVoice 44100], u.isReleasing = true →
            w.getReleaseSamplesRemaining ≤ u.getReleaseSamplesRemaining) ∧
      ((∀ w ∈ [initialVoice 44100], w.isNoteActive = true) →
        (∀ w ∈ [initialVoice 44100], w.isReleasing = false) →
        ∃ w, [initialVoice 44100][i]? = some w ∧
          ∀ u ∈ [initialVoice 44100], w.getCurrentAmplitude ≤ u.getCurrentAmplitude) ∧
      (∀ (noteNumber : ℤ) (fv : ℝ), ∃ w,
        (handleNoteOn [initialVoice 44100] noteNumber fv)[i]? = some w ∧
          w.isNoteActive = true) :=
  findFreeVoice_policy [initialVoice 44100] (by simp) (by
    intro w hw
    rw [List.mem_singleton] at hw
    subst hw
    show (0 : ℝ) < 1
    norm_num)

lemma tanh_lt_one' (x : ℝ) : Real.tanh x < 1 := by
  rw [Real.tanh_eq_sinh_div_cosh]
  exact (div_lt_one (Real.cosh_pos x)).mpr (Real.sinh_lt_cosh x)

lemma neg_one_lt_tanh' (x : ℝ) : -1 < Real.tanh x := by
  rw [Real.tanh_eq_sinh_div_cosh, lt_div_iff₀ (Real.cosh_pos x)]
  nlinarith [Real.cosh_add_sinh x, Real.exp_pos x]

/-- C9: the compressor's per-block target factor is `1` for zero active
voices, else `base = 1/sqrt(activeVoiceCount)` times
`0.7 + 0.3/log10(harmonicCount+1)` when the harmonic count exceeds `1`,
else `base` — the code's recomputation agrees with the spec formula. -/
theorem targetVoiceScalingFactor_eq_spec (activeVoiceCount numOvertones : ℕ) :
    targetVoiceScalingFactor activeVoiceCount numOvertones =
      targetFactorSpec activeVoiceCount numOvertones := by
  unfold targetVoiceScalingFactor targetFactorSpec
  by_cases h : activeVoiceCount = 0
  · simp [h]
  · simp [h, Nat.pos_of_ne_zero h]

/-- C1: every rendered output sample — voice sum times smoothed factor
times master amplitude, then soft-clipped — has magnitude strictly below
`1`; the clipper is the identity on `[-0.7, 0.7]` and maps larger
magnitudes to `±(0.7 + 0.3·tanh((|x|-0.7)/0.3))` with the sign
preserved. -/
theorem softClip_bounds (s f a : ℝ) :
    |renderSample s f a| < 1 ∧
    (|s * f * a| ≤ 0.7 → renderSample s f a = s * f * a) ∧
    (0.7 < s * f * a →
      renderSample s f a = 0.7 + 0.3 * Real.tanh ((s * f * a - 0.7) / 0.3) ∧
      0 < renderSample s f a) ∧
    (s * f * a < -0.7 →
      renderSample s f a = -(0.7 + 0.3 * Real.tanh ((-(s * f * a) - 0.7) / 0.3)) ∧
      renderSample s f a < 0) := by
  unfold renderSample softClip
  set x := s * f * a with hx
  by_cases h1 : x > 0.7
  · have ht1 := tanh_lt_one' ((x - 0.7) / (1 - 0.7))
    have ht2 := neg_one_lt_tanh' ((x - 0.7) / (1 - 0.7))
    rw [if_pos h1]
    refine ⟨by rw [abs_lt]; constructor <;> nlinarith, fun habs => absurd h1 ?_, fun _ => ⟨by norm_num, by nlinarith⟩, fun h2 => absurd h2 (by linarith)⟩
    rw [abs_le] at habs
    linarith [habs.2]
  · by_cases h2 : x < -0.7
    · have ht1 := tanh_lt_one' ((x + 0.7) / (1 - 0.7))
      have ht2 := neg_one_lt_tanh' ((x + 0.7) / (1 - 0.7))
      rw [if_neg h1, if_pos h2]
      have harg : (-x - 0.7) / 0.3 = -((x + 0.7) / (1 - 0.7)) := by ring
      refine ⟨by rw [abs_lt]; constructor <;> nlinarith, fun habs => absurd h2 ?_, fun h3 => absurd h3 (by linarith), fun _ => ⟨?_, by nlinarith⟩⟩
      · rw [abs_le] at habs
        linarith [habs.1]
      · rw [harg, Real.tanh_neg]
        ring
    · rw [if_neg h1, if_neg h2]
      push_neg at h1 h2
      refine ⟨by rw [abs_lt]; constructor <;> linarith, fun _ => rfl, fun h3 => absurd h3 (by linarith), fun h3 => absurd h3 (by linarith)⟩

/-- C1 witness: at concrete inputs, the rendered sample stays inside
`(-1, 1)` and the clipper is the identity below the threshold. -/
theorem softClip_bounds_witness :
    |renderSample 2 1 1| < 1 ∧ renderSample 1 (1 / 2) 1 = 1 * (1 / 2) * 1 :=
  ⟨(softClip_bounds 2 1 1).1, (softClip_bounds 1 (1 / 2) 1).2.1 (by rw [abs_le]; norm_num)⟩

/-- C10: the note-on branch of `processBlock` always passes the incoming
event velocity scaled by `0.8` to the chosen voice's `startNote`, so a
voice never starts with velocity above `0.8` for event velocities in
`[0, 1]`. -/
theorem handleNoteOn_velocity_scaled (voices : List SineWaveVoice) (noteNumber : ℤ)
    (floatVelocity : ℝ) (i : ℕ) (v : SineWaveVoice)
    (hfind : findFreeVoice voices = some i) (hget : voices[i]? = some v) :
    (handleNoteOn voices noteNumber floatVelocity)[i]? =
      some (v.startNote noteNumber (floatVelocity * 0.8)) ∧
    (v.startNote noteNumber (floatVelocity * 0.8)).velocity = floatVelocity * 0.8 ∧
    (0 ≤ floatVelocity → floatVelocity ≤ 1 →
      (v.startNote noteNumber (floatVelocity * 0.8)).velocity ≤ 0.8) := by
  have hi : i < voices.length := by
    by_contra hcon
    rw [List.getElem?_eq_none (Nat.le_of_not_lt hcon)] at hget
    exact Option.noConfusion hget
  refine ⟨?_, rfl, fun h0 h1 => ?_⟩
  · unfold handleNoteOn
    simp only [hfind, hget]
    exact List.getElem?_set_eq_of_lt _ hi
  · show floatVelocity * 0.8 ≤ 0.8
    nlinarith

/-- C10 witness: a fresh one-voice pool handles a velocity-`1` note-on by
starting the note at velocity `0.8` on voice `0`. -/
theorem handleNoteOn_velocity_scaled_witness :
    (handleNoteOn [SineWaveVoice.initialVoice 44100] 60 1)[0]? =
      some ((SineWaveVoice.initialVoice 44100).startNote 60 (1 * 0.8)) ∧
    ((SineWaveVoice.initialVoice 44100).startNote 60 (1 * 0.8)).velocity ≤ 0.8 := by
  have h := handleNoteOn_velocity_scaled [SineWaveVoice.initialVoice 44100] 60 1 0
    (SineWaveVoice.initialVoice 44100) rfl rfl
  exact ⟨h.1, h.2.2 (by norm_num) (by norm_num)⟩

end DesmosOrgan
